import Mathlib

/-!
# Income-dashboard aggregation pipeline: shallow embedding

This file embeds the aggregation/statistics core of the income-dashboard
repository (the d3-based React dashboard in `App.jsx` and its earlier
revisions) and proves the specified properties about it.

Modelling conventions:
* JavaScript numbers are modelled as exact rationals `ℚ`; the value `NaN`
  produced by coercing a non-numeric CSV field with unary `+` is modelled as
  `none` in `Option ℚ` (`JSNum` below).
* `d3.group` / `d3.rollup` are backed by an `InternMap` that iterates keys in
  first-seen insertion order; this is modelled by `firstSeen`/`d3group`.
* `Array.prototype.sort` is stable (ES2019); a stable sort is uniquely
  determined by the comparator's total preorder and the input order, so it is
  modelled by `List.insertionSort`, which Mathlib proves stable.
* `d3.quantile`, `d3.median`, `d3.min`, `d3.max` (d3-array) drop `NaN`/missing
  values before aggregating; `d3.quantile` interpolates between the order
  statistics at `⌊h⌋` and `⌊h⌋ + 1` for `h = p * (n - 1)` (the `value0` and
  `value1` of the d3 source are exactly the sorted values at those indices).
* `d3.scaleLinear` (d3-scale) with default settings does not clamp; with a
  degenerate domain its `normalize` helper returns the constant `0.5`, so every
  value maps to the midpoint of the range.
-/

namespace IncomeDash

/-- A JavaScript number obtained by coercing a CSV field with unary `+`:
`none` models `NaN` (a non-numeric source value), `some q` a finite number. -/
abbrev JSNum := Option ℚ

/-- A cleaned census record, as produced by the data-cleaning block of `App`:
numeric fields coerced with `+`, categorical fields trimmed with an `'N/A'`
fallback. -/
structure Record where
  age : JSNum
  hoursPerWeek : JSNum
  educationNum : JSNum
  capitalGain : JSNum
  capitalLoss : JSNum
  income : String
  education : String
  occupation : String
  sex : String
  maritalStatus : String
deriving Repr, DecidableEq

/-- The distinct elements of a list in first-seen order: the key iteration
order of the `InternMap` underlying `d3.group`/`d3.rollup`. -/
def firstSeen {κ : Type} [DecidableEq κ] : List κ → List κ
  | [] => []
  | k :: ks => k :: (firstSeen ks).filter (fun k2 => decide (k2 ≠ k))

/-- `d3.group(data, keyOf)` as an association list: one entry per distinct key
in first-seen order, each holding the matching records in input order. -/
def d3group {α κ : Type} [DecidableEq κ] (keyOf : α → κ) (xs : List α) :
    List (κ × List α) :=
  (firstSeen (xs.map keyOf)).map
    (fun k => (k, xs.filter (fun x => decide (keyOf x = k))))

/-- `d3.rollup(data, f, keyOf)`: group, then reduce each group with `f`. -/
def d3rollup {α κ β : Type} [DecidableEq κ] (keyOf : α → κ) (f : List α → β)
    (xs : List α) : List (κ × β) :=
  (d3group keyOf xs).map (fun kv => (kv.1, f kv.2))

/-- The `numbers` filter inside d3-array: keep only valid numbers, dropping
`NaN`/missing values. -/
def validNumbers (l : List JSNum) : List ℚ := l.filterMap id

/-- `d3.min(values)`: least valid number, `undefined` (`none`) if there is
none; `NaN` values never win a comparison and hence are skipped. -/
def d3min (l : List JSNum) : Option ℚ := (validNumbers l).min?

/-- `d3.max(values)`: greatest valid number, skipping `NaN`. -/
def d3max (l : List JSNum) : Option ℚ := (validNumbers l).max?

/-- Core of `d3.quantile` on an already-sorted list `v` of valid numbers:
`p ≤ 0` or fewer than two values give the minimum `v[0]`; `p ≥ 1` gives the
maximum `v[n-1]`; otherwise linear interpolation between the order statistics
at `i0 = ⌊h⌋` and `i0 + 1`, where `h = p * (n - 1)`. -/
def qSorted (v : List ℚ) (p : ℚ) : ℚ :=
  if p ≤ 0 ∨ v.length < 2 then v.getD 0 0
  else if 1 ≤ p then v.getD (v.length - 1) 0
  else
    let h : ℚ := p * ((v.length : ℚ) - 1)
    let i0 : ℕ := (⌊h⌋).toNat
    v.getD i0 0 + (h - (i0 : ℚ)) * (v.getD (i0 + 1) 0 - v.getD i0 0)

/-- `d3.quantile(values, p)`: drop invalid numbers, sort ascending, and
interpolate between order statistics (R-7); `undefined` on an empty sample. -/
def d3quantile (l : List JSNum) (p : ℚ) : Option ℚ :=
  let v := List.insertionSort (· ≤ ·) (validNumbers l)
  if v.isEmpty then none else some (qSorted v p)

/-- `d3.median(values)` is `d3.quantile(values, 0.5)`. -/
def d3median (l : List JSNum) : Option ℚ := d3quantile l (1/2)

/-- The five values computed by the box-plot `d3.rollup` reducers
(`AgeChart`, `HoursChart`, `CapitalGainsChart`). -/
structure FiveNum where
  q1 : Option ℚ
  median : Option ℚ
  q3 : Option ℚ
  min : Option ℚ
  max : Option ℚ
deriving Repr, DecidableEq

/-- The reducer body shared by the box-plot charts: quantiles at `.25`, `.5`,
`.75` of the group's field values plus `d3.min`/`d3.max`. -/
def fiveNumberSummary (vals : List JSNum) : FiveNum :=
  { q1 := d3quantile vals (1/4)
    median := d3quantile vals (1/2)
    q3 := d3quantile vals (3/4)
    min := d3min vals
    max := d3max vals }

/-- `AgeChart`'s `sumstat`: per-income five-number summary of ages. -/
def ageSumstat (xs : List Record) : List (String × FiveNum) :=
  d3rollup (fun d => d.income) (fun g => fiveNumberSummary (g.map (fun d => d.age))) xs

/-- `HoursChart`'s `sumstat`: per-income five-number summary of hours per week. -/
def hoursSumstat (xs : List Record) : List (String × FiveNum) :=
  d3rollup (fun d => d.income) (fun g => fiveNumberSummary (g.map (fun d => d.hoursPerWeek))) xs

/-- `CapitalGainsChart` keeps records with `d['capital.gain'] > 0` (false for
`NaN`) and then computes the per-income five-number summary of gains. -/
def capitalGainsSumstat (xs : List Record) : List (String × FiveNum) :=
  d3rollup (fun d => d.income) (fun g => fiveNumberSummary (g.map (fun d => d.capitalGain)))
    (xs.filter (fun d => match d.capitalGain with | some q => decide (0 < q) | none => false))

/-- `IncomeDistributionChart`'s counting pattern
`Array.from(d3.rollup(data, v => v.length, keyOf))`. -/
def countBy {κ : Type} [DecidableEq κ] (keyOf : Record → κ) (xs : List Record) :
    List (κ × ℕ) :=
  d3rollup keyOf List.length xs

/-- A per-group high-income rate aggregate, as built by `EducationChart`,
`SexChart`, `MaritalStatusChart` and `OccupationChart`. -/
structure RateAgg where
  key : String
  rate : ℚ
  total : ℕ
  matched : ℕ
deriving Repr, DecidableEq

/-- The shared rate-aggregation pattern
`Array.from(d3.group(data, keyOf), ([k, values]) =>
  ({k, rate: values.filter(pred).length / values.length, total: values.length}))`. -/
def rateBy (keyOf : Record → String) (pred : Record → Bool) (xs : List Record) :
    List RateAgg :=
  (d3group keyOf xs).map (fun kv =>
    { key := kv.1
      rate := ((kv.2.filter pred).length : ℚ) / (kv.2.length : ℚ)
      total := kv.2.length
      matched := (kv.2.filter pred).length })

/-- The high-income predicate `d => d.income === '>50K'`. -/
def highIncome (d : Record) : Bool := d.income == ">50K"

/-- `OccupationChart`'s pre-filter `d => d.occupation && d.occupation !== '?'`
(an empty string is falsy in JavaScript). -/
def occupationFilter (d : Record) : Bool :=
  !(d.occupation == "") && !(d.occupation == "?")

/-- The descending-by-rate order induced by the JS comparator
`(a, b) => b.rate - a.rate`: `a` may precede `b` iff the comparator is `≤ 0`. -/
def rateDesc (a b : RateAgg) : Prop := b.rate ≤ a.rate

instance : DecidableRel rateDesc := fun a b =>
  inferInstanceAs (Decidable (b.rate ≤ a.rate))

instance : IsTotal RateAgg rateDesc := ⟨fun a b => le_total b.rate a.rate⟩

instance : IsTrans RateAgg rateDesc := ⟨fun _ _ _ h1 h2 => le_trans h2 h1⟩

/-- `OccupationChart`'s `occupationRates`: filter out unknown occupations,
aggregate high-income rates per occupation, sort descending by rate (JS sort
is stable, modelled by the stable `insertionSort`). -/
def occupationRates (xs : List Record) : List RateAgg :=
  List.insertionSort rateDesc
    (rateBy (fun d => d.occupation) highIncome (xs.filter occupationFilter))

/-- `EducationChart`'s per-education aggregate, carrying the sort key
`educationNum = values[0]['education.num']`. -/
structure EduAgg where
  education : String
  rate : ℚ
  total : ℕ
  educationNum : JSNum
deriving Repr, DecidableEq

/-- Build one education aggregate from a `d3.group` entry; the sort key is the
`education.num` of the first record of the group (`values[0]`). -/
def eduAggOf (kv : String × List Record) : EduAgg :=
  { education := kv.1
    rate := ((kv.2.filter highIncome).length : ℚ) / (kv.2.length : ℚ)
    total := kv.2.length
    educationNum := kv.2.head?.bind Record.educationNum }

/-- The ascending order induced by the JS comparator
`(a, b) => a.educationNum - b.educationNum`; a comparison against `NaN`
returns `NaN`, which the stable sort treats as a tie (no reorder). -/
def eduAsc (a b : EduAgg) : Prop :=
  match a.educationNum, b.educationNum with
  | some x, some y => x ≤ y
  | _, _ => True

instance : DecidableRel eduAsc := fun a b => by
  unfold eduAsc
  rcases a.educationNum with _ | x <;> rcases b.educationNum with _ | y <;>
    simp only [] <;> infer_instance

/-- `EducationChart`'s `educationRates`: per-education rate aggregates sorted
ascending by the group's `education.num` sort key. -/
def educationRates (xs : List Record) : List EduAgg :=
  List.insertionSort eduAsc ((d3group (fun d => d.education) xs).map eduAggOf)

/-- `d3.scaleLinear().domain([d0, d1]).range([r0, r1])` applied to `v`, with
the d3 defaults: no clamping, and for a degenerate domain the `normalize`
helper becomes the constant `0.5`, sending every value to the midpoint of the
range. -/
def scaleLinear (d0 d1 r0 r1 v : ℚ) : ℚ :=
  if d1 - d0 = 0 then r0 + (1/2) * (r1 - r0)
  else r0 + ((v - d0) / (d1 - d0)) * (r1 - r0)

/-- The KPI record computed once per load in `App`. -/
structure KPI where
  total : ℕ
  highIncomePercent : JSNum
  medianAge : JSNum
deriving Repr, DecidableEq

/-- The KPI block of `App`: `total = records.length`,
`highIncomePercent = highIncomeCount / total * 100` (JS `0 / 0` is `NaN`,
modelled `none`; a nonzero count over a zero total cannot arise), and
`medianAge = d3.median(records, d => d.age)`. -/
def computeKPI (xs : List Record) : KPI :=
  { total := xs.length
    highIncomePercent :=
      if xs.length = 0 then none
      else some ((((xs.filter highIncome).length : ℚ) / (xs.length : ℚ)) * 100)
    medianAge := d3median (xs.map (fun d => d.age)) }

end IncomeDash

namespace IncomeDash

/-! ## Lemmas about first-seen grouping -/

theorem firstSeen_mem {κ : Type} [DecidableEq κ] {l : List κ} {a : κ} :
    a ∈ firstSeen l ↔ a ∈ l := by
  induction l with
  | nil => simp [firstSeen]
  | cons k ks ih =>
    by_cases hak : a = k
    · subst hak; simp [firstSeen]
    · simp [firstSeen, List.mem_filter, hak, ih]

theorem firstSeen_nodup {κ : Type} [DecidableEq κ] (l : List κ) :
    (firstSeen l).Nodup := by
  induction l with
  | nil => simp [firstSeen]
  | cons k ks ih =>
    refine List.Nodup.cons ?_ (ih.filter _)
    intro hk
    have := (List.mem_filter.mp hk).2
    simp at this

/-- The first element of a filtered list is the first matching element. -/
theorem head?_filter {α : Type} (p : α → Bool) (l : List α) :
    (l.filter p).head? = l.find? p := by
  induction l with
  | nil => rfl
  | cons x xs ih =>
    by_cases hx : p x
    · simp [List.filter_cons, hx, List.find?]
    · simp only [List.filter_cons, List.find?, hx]
      simp only [Bool.false_eq_true, if_false, cond_false]
      exact ih

/-! ## Lemmas about `d3group` -/

theorem d3group_keys {α κ : Type} [DecidableEq κ] (keyOf : α → κ) (xs : List α) :
    (d3group keyOf xs).map Prod.fst = firstSeen (xs.map keyOf) := by
  simp only [d3group, List.map_map]
  exact List.map_id _

theorem d3group_mem_key {α κ : Type} [DecidableEq κ] {keyOf : α → κ} {xs : List α}
    {k : κ} {g : List α} (h : (k, g) ∈ d3group keyOf xs) :
    k ∈ xs.map keyOf ∧ g = xs.filter (fun x => decide (keyOf x = k)) := by
  obtain ⟨k2, hk2, heq⟩ := List.mem_map.mp h
  obtain ⟨hk, hg⟩ := Prod.mk.injEq .. ▸ heq
  subst hk
  exact ⟨firstSeen_mem.mp hk2, hg.symm⟩

theorem d3group_nonempty {α κ : Type} [DecidableEq κ] {keyOf : α → κ} {xs : List α}
    {k : κ} {g : List α} (h : (k, g) ∈ d3group keyOf xs) : g ≠ [] := by
  obtain ⟨hk, hg⟩ := d3group_mem_key h
  obtain ⟨x, hx, hxk⟩ := List.mem_map.mp hk
  subst hg
  intro hnil
  have : x ∈ xs.filter (fun x => decide (keyOf x = k)) :=
    List.mem_filter.mpr ⟨hx, by simp [hxk]⟩
  simp [hnil] at this

/-- Every record is counted exactly once across the groups of its key list:
the group sizes of `d3group` sum to the number of records. -/
theorem d3group_length_sum {α κ : Type} [DecidableEq κ] (keyOf : α → κ) (xs : List α) :
    ((d3group keyOf xs).map (fun kv => kv.2.length)).sum = xs.length := by
  have key : ∀ (ks : List κ) (ys : List α), ks.Nodup → (∀ y ∈ ys, keyOf y ∈ ks) →
      (ks.map (fun k => (ys.filter (fun x => decide (keyOf x = k))).length)).sum = ys.length := by
    intro ks ys hnd hmem
    induction ys with
    | nil => simp
    | cons y ys ih =>
      have hy : keyOf y ∈ ks := hmem y (List.mem_cons_self y ys)
      have hys : ∀ z ∈ ys, keyOf z ∈ ks := fun z hz => hmem z (List.mem_cons_of_mem y hz)
      have step : (ks.map (fun k => ((y :: ys).filter (fun x => decide (keyOf x = k))).length)).sum
          = (ks.map (fun k => (if keyOf y = k then 1 else 0) +
              (ys.filter (fun x => decide (keyOf x = k))).length)).sum := by
        congr 1
        refine List.map_congr_left (fun k _ => ?_)
        by_cases hk : keyOf y = k <;> simp [List.filter_cons, hk] <;> omega
      rw [step]
      have split : (ks.map (fun k => (if keyOf y = k then 1 else 0) +
          (ys.filter (fun x => decide (keyOf x = k))).length)).sum
          = (ks.map (fun k => if keyOf y = k then 1 else 0)).sum +
            (ks.map (fun k => (ys.filter (fun x => decide (keyOf x = k))).length)).sum := by
        induction ks with
        | nil => simp
        | cons a as ihk => simp [ihk]; ring
      rw [split, ih hys]
      have ind : (ks.map (fun k => if keyOf y = k then 1 else 0)).sum = 1 := by
        clear step split ih hmem hys
        induction ks with
        | nil => simp at hy
        | cons a as ihk =>
          rcases List.mem_cons.mp hy with ha | ha
          · have : keyOf y ∉ as := fun hmem2 => (List.nodup_cons.mp hnd).1 (ha ▸ hmem2)
            have z : (as.map (fun k => if keyOf y = k then 1 else 0)).sum = 0 := by
              rw [List.sum_eq_zero]
              intro n hn
              obtain ⟨k, hk, hkn⟩ := List.mem_map.mp hn
              have : ¬ keyOf y = k := fun he => this (he ▸ hk)
              simpa [this] using hkn.symm
            rw [ha] at z
            simp [ha, z]
          · have hne : keyOf y ≠ a := fun he => (List.nodup_cons.mp hnd).1 (he ▸ ha)
            simp [hne, ihk (List.nodup_cons.mp hnd).2 ha]
      rw [ind]
      simp only [List.length_cons]
      omega
  have := key (firstSeen (xs.map keyOf)) xs (firstSeen_nodup _)
    (fun y hy => firstSeen_mem.mpr (List.mem_map.mpr ⟨y, hy, rfl⟩))
  simpa [d3group, List.map_map, Function.comp] using this

end IncomeDash

namespace IncomeDash

/-! ## Order lemmas for sorted lists -/

theorem sorted_getD_le (v : List ℚ) (hs : v.Sorted (· ≤ ·)) {a b : ℕ}
    (hab : a ≤ b) (hb : b < v.length) : v.getD a 0 ≤ v.getD b 0 := by
  have ha : a < v.length := lt_of_le_of_lt hab hb
  rw [List.getD_eq_getElem _ _ ha, List.getD_eq_getElem _ _ hb]
  have hfin : (⟨a, ha⟩ : Fin v.length) ≤ ⟨b, hb⟩ := hab
  have := hs.rel_get_of_le hfin
  simpa using this

theorem sorted_head_le_mem {v : List ℚ} (hs : v.Sorted (· ≤ ·)) {b : ℚ}
    (hb : b ∈ v) : v.getD 0 0 ≤ b := by
  cases v with
  | nil => cases hb
  | cons c t =>
    rcases List.mem_cons.mp hb with rfl | hbt
    · simp
    · simpa using List.rel_of_sorted_cons hs b hbt

theorem sorted_mem_le_last {v : List ℚ} (hs : v.Sorted (· ≤ ·)) {b : ℚ}
    (hb : b ∈ v) : b ≤ v.getD (v.length - 1) 0 := by
  obtain ⟨i, hi⟩ := List.mem_iff_get.mp hb
  have hlen : 0 < v.length := List.length_pos.mpr (List.ne_nil_of_mem hb)
  have : v.getD i 0 ≤ v.getD (v.length - 1) 0 :=
    sorted_getD_le v hs (Nat.le_sub_one_of_lt i.isLt) (by omega)
  rw [List.getD_eq_getElem _ _ i.isLt] at this
  simpa [← hi] using this

theorem min?_eq_some_iff_rat {a : ℚ} {xs : List ℚ} :
    xs.min? = some a ↔ a ∈ xs ∧ ∀ b ∈ xs, a ≤ b := by
  haveI : Std.Antisymm (fun (x y : ℚ) => x ≤ y) := ⟨fun h h2 => le_antisymm h h2⟩
  exact List.min?_eq_some_iff (fun _ => le_refl _) (fun _ _ => min_choice _ _)
    (fun _ _ _ => le_min_iff)

theorem max?_eq_some_iff_rat {a : ℚ} {xs : List ℚ} :
    xs.max? = some a ↔ a ∈ xs ∧ ∀ b ∈ xs, b ≤ a := by
  haveI : Std.Antisymm (fun (x y : ℚ) => x ≤ y) := ⟨fun h h2 => le_antisymm h h2⟩
  exact List.max?_eq_some_iff (fun _ => le_refl _) (fun _ _ => max_choice _ _)
    (fun _ _ _ => max_le_iff)

/-- `d3.min` is the head of the ascending-sorted valid sample. -/
theorem d3min_eq_sorted_head (l : List JSNum) (hne : validNumbers l ≠ []) :
    d3min l = some ((List.insertionSort (· ≤ ·) (validNumbers l)).getD 0 0) := by
  set v := List.insertionSort (· ≤ ·) (validNumbers l) with hv
  have hperm : v.Perm (validNumbers l) := List.perm_insertionSort _ _
  have hvne : v ≠ [] := by
    intro h
    apply hne
    have hlen := hperm.length_eq
    rw [h] at hlen
    exact List.length_eq_zero.mp hlen.symm
  have hvs : v.Sorted (· ≤ ·) := List.sorted_insertionSort _ _
  rw [d3min, min?_eq_some_iff_rat]
  constructor
  · refine hperm.mem_iff.mp ?_
    have : 0 < v.length := List.length_pos.mpr hvne
    rw [List.getD_eq_getElem _ _ this]
    exact List.getElem_mem _
  · intro b hb
    exact sorted_head_le_mem hvs (hperm.mem_iff.mpr hb)

/-- `d3.max` is the last element of the ascending-sorted valid sample. -/
theorem d3max_eq_sorted_last (l : List JSNum) (hne : validNumbers l ≠ []) :
    d3max l = some ((List.insertionSort (· ≤ ·) (validNumbers l)).getD
      ((List.insertionSort (· ≤ ·) (validNumbers l)).length - 1) 0) := by
  set v := List.insertionSort (· ≤ ·) (validNumbers l) with hv
  have hperm : v.Perm (validNumbers l) := List.perm_insertionSort _ _
  have hvne : v ≠ [] := by
    intro h
    apply hne
    have hlen := hperm.length_eq
    rw [h] at hlen
    exact List.length_eq_zero.mp hlen.symm
  have hvs : v.Sorted (· ≤ ·) := List.sorted_insertionSort _ _
  have hvlen : 0 < v.length := List.length_pos.mpr hvne
  rw [d3max, max?_eq_some_iff_rat]
  constructor
  · refine hperm.mem_iff.mp ?_
    rw [List.getD_eq_getElem _ _ (by omega)]
    exact List.getElem_mem _
  · intro b hb
    exact sorted_mem_le_last hvs (hperm.mem_iff.mpr hb)

end IncomeDash

namespace IncomeDash

/-! ## Analysis of the quantile interpolation -/

/-- Index facts for the interpolation branch: with `0 < p < 1` and `n ≥ 2`,
the index `h = p * (n - 1)` is nonnegative, lies in `[i0, i0 + 1)` for
`i0 = ⌊h⌋.toNat`, and `i0 + 1` is a valid index. -/
theorem interp_index_facts {n : ℕ} {p : ℚ} (h2 : 2 ≤ n) (hp0 : 0 < p) (hp1 : p < 1) :
    ((((⌊p * ((n : ℚ) - 1)⌋).toNat : ℚ) ≤ p * ((n : ℚ) - 1)) ∧
      p * ((n : ℚ) - 1) < ((⌊p * ((n : ℚ) - 1)⌋).toNat : ℚ) + 1) ∧
      (⌊p * ((n : ℚ) - 1)⌋).toNat + 1 < n := by
  set h : ℚ := p * ((n : ℚ) - 1) with hh
  have hn1 : (1 : ℚ) ≤ (n : ℚ) - 1 := by
    have : (2 : ℚ) ≤ (n : ℚ) := by exact_mod_cast h2
    linarith
  have hge : 0 ≤ h := by positivity
  have hfl0 : 0 ≤ ⌊h⌋ := Int.floor_nonneg.mpr hge
  have hc : ((⌊h⌋.toNat : ℕ) : ℚ) = ((⌊h⌋ : ℤ) : ℚ) := by
    exact_mod_cast Int.toNat_of_nonneg hfl0
  refine ⟨⟨?_, ?_⟩, ?_⟩
  · rw [hc]; exact Int.floor_le h
  · rw [hc]; exact Int.lt_floor_add_one h
  · have hlt : h < (n : ℚ) - 1 := by nlinarith
    have : ⌊h⌋ < (n : ℤ) - 1 := by
      rw [Int.floor_lt]
      push_cast
      exact hlt
    omega

/-- In the interpolation branch the result lies between the two interpolated
order statistics. -/
theorem interp_branch_bounds (v : List ℚ) (hs : v.Sorted (· ≤ ·)) {p : ℚ}
    (hp0 : 0 < p) (hp1 : p < 1) (h2 : 2 ≤ v.length) :
    v.getD (⌊p * ((v.length : ℚ) - 1)⌋).toNat 0 ≤ qSorted v p ∧
      qSorted v p ≤ v.getD ((⌊p * ((v.length : ℚ) - 1)⌋).toNat + 1) 0 := by
  obtain ⟨⟨hfl, hflt⟩, hidx⟩ := interp_index_facts h2 hp0 hp1
  have hq : qSorted v p =
      v.getD (⌊p * ((v.length : ℚ) - 1)⌋).toNat 0 +
        (p * ((v.length : ℚ) - 1) - ((⌊p * ((v.length : ℚ) - 1)⌋).toNat : ℚ)) *
          (v.getD ((⌊p * ((v.length : ℚ) - 1)⌋).toNat + 1) 0 -
            v.getD (⌊p * ((v.length : ℚ) - 1)⌋).toNat 0) := by
    rw [qSorted, if_neg, if_neg]
    · exact not_le.mpr hp1
    · push_neg
      exact ⟨hp0, by omega⟩
  have hΔ : v.getD (⌊p * ((v.length : ℚ) - 1)⌋).toNat 0 ≤
      v.getD ((⌊p * ((v.length : ℚ) - 1)⌋).toNat + 1) 0 :=
    sorted_getD_le v hs (Nat.le_succ _) hidx
  constructor
  · rw [hq]; nlinarith
  · rw [hq]; nlinarith

/-- The quantile of a sorted sample always lies between the sample's first
and last elements. -/
theorem qSorted_bounds (v : List ℚ) (hs : v.Sorted (· ≤ ·)) (hne : v ≠ [])
    (p : ℚ) :
    v.getD 0 0 ≤ qSorted v p ∧ qSorted v p ≤ v.getD (v.length - 1) 0 := by
  have hlen : 0 < v.length := List.length_pos.mpr hne
  by_cases hb1 : p ≤ 0 ∨ v.length < 2
  · rw [qSorted, if_pos hb1]
    exact ⟨le_refl _, sorted_getD_le v hs (Nat.zero_le _) (by omega)⟩
  · push_neg at hb1
    obtain ⟨hp0, h2⟩ := hb1
    by_cases hb2 : 1 ≤ p
    · rw [qSorted, if_neg (by push_neg; exact ⟨hp0, by omega⟩), if_pos hb2]
      exact ⟨sorted_getD_le v hs (Nat.zero_le _) (by omega), le_refl _⟩
    · rw [not_le] at hb2
      obtain ⟨hlo, hhi⟩ := interp_branch_bounds v hs hp0 hb2 h2
      obtain ⟨⟨_, _⟩, hidx⟩ := interp_index_facts h2 hp0 hb2
      constructor
      · exact le_trans (sorted_getD_le v hs (Nat.zero_le _) (by omega)) hlo
      · exact le_trans hhi (sorted_getD_le v hs (by omega) (by omega))

/-- Monotonicity of the quantile in `p` over a sorted sample. -/
theorem qSorted_mono (v : List ℚ) (hs : v.Sorted (· ≤ ·)) (hne : v ≠ [])
    {p q : ℚ} (hpq : p ≤ q) : qSorted v p ≤ qSorted v q := by
  have hlen : 0 < v.length := List.length_pos.mpr hne
  by_cases hbq : q ≤ 0 ∨ v.length < 2
  · have hbp : p ≤ 0 ∨ v.length < 2 := by
      rcases hbq with hq0 | hn
      · exact Or.inl (le_trans hpq hq0)
      · exact Or.inr hn
    rw [qSorted, if_pos hbp, qSorted, if_pos hbq]
  · push_neg at hbq
    obtain ⟨hq0, h2⟩ := hbq
    by_cases hbp : p ≤ 0 ∨ v.length < 2
    · rw [qSorted, if_pos hbp]
      exact (qSorted_bounds v hs hne q).1
    · push_neg at hbp
      obtain ⟨hp0, _⟩ := hbp
      by_cases h1q : 1 ≤ q
      · by_cases h1p : 1 ≤ p
        · rw [qSorted, if_neg (by push_neg; exact ⟨hp0, by omega⟩), if_pos h1p,
            qSorted, if_neg (by push_neg; exact ⟨hq0, by omega⟩), if_pos h1q]
        · have hub := (qSorted_bounds v hs hne p).2
          have hq_eq : qSorted v q = v.getD (v.length - 1) 0 := by
            rw [qSorted, if_neg (by push_neg; exact ⟨hq0, by omega⟩), if_pos h1q]
          rw [hq_eq]
          exact hub
      · rw [not_le] at h1q
        have h1p : p < 1 := lt_of_le_of_lt hpq h1q
        have hij : p * ((v.length : ℚ) - 1) ≤ q * ((v.length : ℚ) - 1) := by
          have : (0 : ℚ) ≤ (v.length : ℚ) - 1 := by
            have : (2 : ℚ) ≤ (v.length : ℚ) := by exact_mod_cast h2
            linarith
          exact mul_le_mul_of_nonneg_right hpq this
        have hfl : (⌊p * ((v.length : ℚ) - 1)⌋).toNat ≤ (⌊q * ((v.length : ℚ) - 1)⌋).toNat := by
          have := Int.floor_le_floor hij
          omega
        obtain ⟨⟨hflp, hfltp⟩, hidxp⟩ := interp_index_facts h2 hp0 h1p
        obtain ⟨⟨hflq, hfltq⟩, hidxq⟩ := interp_index_facts h2 hq0 h1q
        have hqp : qSorted v p =
            v.getD (⌊p * ((v.length : ℚ) - 1)⌋).toNat 0 +
              (p * ((v.length : ℚ) - 1) - ((⌊p * ((v.length : ℚ) - 1)⌋).toNat : ℚ)) *
                (v.getD ((⌊p * ((v.length : ℚ) - 1)⌋).toNat + 1) 0 -
                  v.getD (⌊p * ((v.length : ℚ) - 1)⌋).toNat 0) := by
          rw [qSorted, if_neg (by push_neg; exact ⟨hp0, by omega⟩),
            if_neg (not_le.mpr h1p)]
        have hqq : qSorted v q =
            v.getD (⌊q * ((v.length : ℚ) - 1)⌋).toNat 0 +
              (q * ((v.length : ℚ) - 1) - ((⌊q * ((v.length : ℚ) - 1)⌋).toNat : ℚ)) *
                (v.getD ((⌊q * ((v.length : ℚ) - 1)⌋).toNat + 1) 0 -
                  v.getD (⌊q * ((v.length : ℚ) - 1)⌋).toNat 0) := by
          rw [qSorted, if_neg (by push_neg; exact ⟨hq0, by omega⟩),
            if_neg (not_le.mpr h1q)]
        rcases Nat.lt_or_ge (⌊p * ((v.length : ℚ) - 1)⌋).toNat
            (⌊q * ((v.length : ℚ) - 1)⌋).toNat with hlt | hge
        · have hup : qSorted v p ≤ v.getD ((⌊p * ((v.length : ℚ) - 1)⌋).toNat + 1) 0 :=
            (interp_branch_bounds v hs hp0 h1p h2).2
          have hmid : v.getD ((⌊p * ((v.length : ℚ) - 1)⌋).toNat + 1) 0 ≤
              v.getD (⌊q * ((v.length : ℚ) - 1)⌋).toNat 0 :=
            sorted_getD_le v hs (by omega) (by omega)
          have hlo : v.getD (⌊q * ((v.length : ℚ) - 1)⌋).toNat 0 ≤ qSorted v q :=
            (interp_branch_bounds v hs hq0 h1q h2).1
          exact le_trans hup (le_trans hmid hlo)
        · have heq : (⌊p * ((v.length : ℚ) - 1)⌋).toNat = (⌊q * ((v.length : ℚ) - 1)⌋).toNat :=
            le_antisymm hfl hge
          rw [hqp, hqq, ← heq]
          have hΔ : v.getD (⌊p * ((v.length : ℚ) - 1)⌋).toNat 0 ≤
              v.getD ((⌊p * ((v.length : ℚ) - 1)⌋).toNat + 1) 0 :=
            sorted_getD_le v hs (Nat.le_succ _) hidxp
          nlinarith [mul_nonneg (sub_nonneg.mpr hij) (sub_nonneg.mpr hΔ)]

end IncomeDash

namespace IncomeDash

/-- On a non-empty valid sample, `d3.quantile` is `qSorted` of the ascending
sort. -/
theorem d3quantile_eq_qSorted (l : List JSNum) (p : ℚ) (hne : validNumbers l ≠ []) :
    d3quantile l p = some (qSorted (List.insertionSort (· ≤ ·) (validNumbers l)) p) := by
  have hperm : (List.insertionSort (· ≤ ·) (validNumbers l)).Perm (validNumbers l) :=
    List.perm_insertionSort _ _
  have hvne : List.insertionSort (· ≤ ·) (validNumbers l) ≠ [] := by
    intro h
    apply hne
    have hlen := hperm.length_eq
    rw [h] at hlen
    exact List.length_eq_zero.mp hlen.symm
  rw [d3quantile]
  simp only [List.isEmpty_iff, hvne, if_false]

/-- C4. For every key and every non-empty numeric sample grouped under that
key, the five-number summary computed by the box-plot reducers satisfies
`min ≤ q1 ≤ median ≤ q3 ≤ max`. -/
theorem fiveNumberSummary_ordered (l : List JSNum) (hne : validNumbers l ≠ []) :
    ∃ mn q1 md q3 mx,
      (fiveNumberSummary l).min = some mn ∧ (fiveNumberSummary l).q1 = some q1 ∧
      (fiveNumberSummary l).median = some md ∧ (fiveNumberSummary l).q3 = some q3 ∧
      (fiveNumberSummary l).max = some mx ∧
      mn ≤ q1 ∧ q1 ≤ md ∧ md ≤ q3 ∧ q3 ≤ mx := by
  set v := List.insertionSort (· ≤ ·) (validNumbers l) with hv
  have hvs : v.Sorted (· ≤ ·) := List.sorted_insertionSort _ _
  have hperm : v.Perm (validNumbers l) := List.perm_insertionSort _ _
  have hvne : v ≠ [] := by
    intro h
    apply hne
    have hlen := hperm.length_eq
    rw [h] at hlen
    exact List.length_eq_zero.mp hlen.symm
  refine ⟨v.getD 0 0, qSorted v (1/4), qSorted v (1/2), qSorted v (3/4),
    v.getD (v.length - 1) 0, ?_, ?_, ?_, ?_, ?_, ?_, ?_, ?_, ?_⟩
  · show d3min l = some (v.getD 0 0)
    exact d3min_eq_sorted_head l hne
  · show d3quantile l (1/4) = some (qSorted v (1/4))
    exact d3quantile_eq_qSorted l (1/4) hne
  · show d3quantile l (1/2) = some (qSorted v (1/2))
    exact d3quantile_eq_qSorted l (1/2) hne
  · show d3quantile l (3/4) = some (qSorted v (3/4))
    exact d3quantile_eq_qSorted l (3/4) hne
  · show d3max l = some (v.getD (v.length - 1) 0)
    exact d3max_eq_sorted_last l hne
  · exact (qSorted_bounds v hvs hvne (1/4)).1
  · exact qSorted_mono v hvs hvne (by norm_num)
  · exact qSorted_mono v hvs hvne (by norm_num)
  · exact (qSorted_bounds v hvs hvne (3/4)).2

/-- Witness for C4 at the sample `[10, 20, 30, 40]`. -/
theorem fiveNumberSummary_ordered_witness :
    validNumbers [some 10, some 20, some 30, some 40] ≠ [] ∧
    (∃ mn q1 md q3 mx,
      (fiveNumberSummary [some 10, some 20, some 30, some 40]).min = some mn ∧
      (fiveNumberSummary [some 10, some 20, some 30, some 40]).q1 = some q1 ∧
      (fiveNumberSummary [some 10, some 20, some 30, some 40]).median = some md ∧
      (fiveNumberSummary [some 10, some 20, some 30, some 40]).q3 = some q3 ∧
      (fiveNumberSummary [some 10, some 20, some 30, some 40]).max = some mx ∧
      mn ≤ q1 ∧ q1 ≤ md ∧ md ≤ q3 ∧ q3 ≤ mx) :=
  ⟨by decide, fiveNumberSummary_ordered [some 10, some 20, some 30, some 40] (by decide)⟩

end IncomeDash

namespace IncomeDash

theorem validNumbers_map_some (v : List ℚ) : validNumbers (v.map some) = v := by
  induction v with
  | nil => rfl
  | cons a t ih => simp only [validNumbers, List.map_cons, List.filterMap_cons] at ih ⊢; simp [ih]

/-- C1. On a non-empty ascending-sorted sample `v` and `p ∈ [0,1]`, the d3
quantile is the R-7 interpolation `v[⌊h⌋] + (h - ⌊h⌋) * (v[⌈h⌉] - v[⌊h⌋])`
with `h = p * (n - 1)`; in particular a single-element sample returns its one
value for all `p`, and `[10,20,30,40]` gives `q1 = 17.5`, `median = 25`,
`q3 = 32.5`. -/
theorem d3quantile_interpolation :
    (∀ (v : List ℚ), v.Sorted (· ≤ ·) → v ≠ [] → ∀ p : ℚ, 0 ≤ p → p ≤ 1 →
      d3quantile (v.map some) p = some
        (v.getD (⌊p * ((v.length : ℚ) - 1)⌋).toNat 0 +
          (p * ((v.length : ℚ) - 1) - ((⌊p * ((v.length : ℚ) - 1)⌋ : ℤ) : ℚ)) *
            (v.getD (⌈p * ((v.length : ℚ) - 1)⌉).toNat 0 -
              v.getD (⌊p * ((v.length : ℚ) - 1)⌋).toNat 0)))
  ∧ (∀ x p : ℚ, d3quantile [some x] p = some x)
  ∧ d3quantile [some 10, some 20, some 30, some 40] (1/4) = some (35/2)
  ∧ d3quantile [some 10, some 20, some 30, some 40] (1/2) = some 25
  ∧ d3quantile [some 10, some 20, some 30, some 40] (3/4) = some (65/2) := by
  refine ⟨?_, ?_, ?_, ?_, ?_⟩
  · intro v hs hne p hp0 hp1
    have hval : validNumbers (v.map some) = v := validNumbers_map_some v
    have hsort : List.insertionSort (· ≤ ·) v = v := List.Sorted.insertionSort_eq hs
    have hlen : 0 < v.length := List.length_pos.mpr hne
    have hq : d3quantile (v.map some) p = some (qSorted v p) := by
      have := d3quantile_eq_qSorted (v.map some) p (by rw [hval]; exact hne)
      rw [hval, hsort] at this
      exact this
    rw [hq]
    congr 1
    by_cases hA : p ≤ 0 ∨ v.length < 2
    · rw [qSorted, if_pos hA]
      have hh0 : p * ((v.length : ℚ) - 1) = 0 := by
        rcases hA with hp | hn
        · have : p = 0 := le_antisymm hp hp0
          rw [this, zero_mul]
        · have : v.length = 1 := by omega
          rw [this]
          norm_num
      rw [hh0]
      norm_num
    · push_neg at hA
      obtain ⟨hppos, h2⟩ := hA
      by_cases hB : 1 ≤ p
      · have hp1' : p = 1 := le_antisymm hp1 hB
        subst hp1'
        rw [qSorted, if_neg (by push_neg; exact ⟨hppos, by omega⟩), if_pos (le_refl 1)]
        have hcast : (1 : ℚ) * ((v.length : ℚ) - 1) = ((v.length - 1 : ℕ) : ℚ) := by
          push_cast [Nat.cast_sub (by omega : 1 ≤ v.length)]
          ring
        rw [hcast, Int.floor_natCast, Int.ceil_natCast]
        have : ((v.length - 1 : ℕ) : ℤ).toNat = v.length - 1 := by omega
        rw [this]
        ring
      · push_neg at hB
        rw [qSorted, if_neg (by push_neg; exact ⟨hppos, by omega⟩), if_neg (not_le.mpr hB)]
        obtain ⟨⟨hfl, hflt⟩, hidx⟩ := interp_index_facts h2 hppos hB
        set h : ℚ := p * ((v.length : ℚ) - 1) with hh
        have hge : (0 : ℚ) ≤ h := le_trans (Nat.cast_nonneg _) hfl
        have hfl0 : 0 ≤ ⌊h⌋ := Int.floor_nonneg.mpr hge
        have hc : ((⌊h⌋.toNat : ℕ) : ℚ) = ((⌊h⌋ : ℤ) : ℚ) := by
          exact_mod_cast Int.toNat_of_nonneg hfl0
        dsimp only
        by_cases hint : (⌊h⌋ : ℚ) = h
        · have hceil : ⌈h⌉ = ⌊h⌋ := by
            conv_lhs => rw [← hint]
            exact Int.ceil_intCast _
          have hzero : h - ((⌊h⌋ : ℤ) : ℚ) = 0 := by rw [hint]; ring
          rw [hceil, hc, hzero]
          ring
        · have hceil : ⌈h⌉ = ⌊h⌋ + 1 := by
            have hub : ⌈h⌉ ≤ ⌊h⌋ + 1 := by
              rw [Int.ceil_le]
              push_cast
              exact le_of_lt (Int.lt_floor_add_one h)
            have hlb : ⌊h⌋ + 1 ≤ ⌈h⌉ := by
              have hlt : (⌊h⌋ : ℚ) < h := lt_of_le_of_ne (Int.floor_le h) hint
              have hcast : (⌊h⌋ : ℚ) < (⌈h⌉ : ℚ) := lt_of_lt_of_le hlt (Int.le_ceil h)
              have : ⌊h⌋ < ⌈h⌉ := by exact_mod_cast hcast
              omega
            exact le_antisymm hub hlb
          have htn : (⌈h⌉).toNat = ⌊h⌋.toNat + 1 := by
            rw [hceil]
            omega
          rw [htn, hc]
  · intro x p
    simp [d3quantile, validNumbers, List.insertionSort, List.orderedInsert, qSorted]
  · norm_num [d3quantile, qSorted, validNumbers, List.insertionSort, List.orderedInsert,
      Int.toNat_ofNat]
  · norm_num [d3quantile, qSorted, validNumbers, List.insertionSort, List.orderedInsert,
      Int.toNat_ofNat]
  · have ht2 : Int.toNat 2 = 2 := rfl
    norm_num [d3quantile, qSorted, validNumbers, List.insertionSort, List.orderedInsert,
      Int.toNat_ofNat, ht2]

/-- Witness for C1 at the sorted sample `[10,20,30,40]` and `p = 1/4`. -/
theorem d3quantile_interpolation_witness :
    List.Sorted (· ≤ ·) [(10 : ℚ), 20, 30, 40] ∧ ([(10 : ℚ), 20, 30, 40] ≠ []) ∧
      (0 : ℚ) ≤ 1/4 ∧ (1/4 : ℚ) ≤ 1 ∧
      d3quantile ([(10 : ℚ), 20, 30, 40].map some) (1/4) = some
        ([(10 : ℚ), 20, 30, 40].getD (⌊(1/4 : ℚ) * (((4 : ℕ) : ℚ) - 1)⌋).toNat 0 +
          ((1/4 : ℚ) * (((4 : ℕ) : ℚ) - 1) - ((⌊(1/4 : ℚ) * (((4 : ℕ) : ℚ) - 1)⌋ : ℤ) : ℚ)) *
            ([(10 : ℚ), 20, 30, 40].getD (⌈(1/4 : ℚ) * (((4 : ℕ) : ℚ) - 1)⌉).toNat 0 -
              [(10 : ℚ), 20, 30, 40].getD (⌊(1/4 : ℚ) * (((4 : ℕ) : ℚ) - 1)⌋).toNat 0)) := by
  have hs : List.Sorted (· ≤ ·) [(10 : ℚ), 20, 30, 40] := by
    norm_num [List.sorted_cons]
  have hne : [(10 : ℚ), 20, 30, 40] ≠ [] := by simp
  refine ⟨hs, hne, by norm_num, by norm_num, ?_⟩
  exact d3quantile_interpolation.1 [(10 : ℚ), 20, 30, 40] hs hne (1/4) (by norm_num) (by norm_num)

end IncomeDash

namespace IncomeDash

/-- A typical cleaned record used to build concrete examples. -/
def base : Record :=
  { age := some 39, hoursPerWeek := some 40, educationNum := some 13
    capitalGain := some 0, capitalLoss := some 0
    income := "<=50K", education := "Bachelors", occupation := "Adm-clerical"
    sex := "Male", maritalStatus := "Never-married" }

theorem countBy_map_snd {κ : Type} [DecidableEq κ] (keyOf : Record → κ) (xs : List Record) :
    (countBy keyOf xs).map (fun kv => kv.2) = (d3group keyOf xs).map (fun kv => kv.2.length) := by
  simp [countBy, d3rollup, List.map_map, Function.comp]

/-- The counts of `countBy` sum to the number of records. -/
theorem countBy_sum {κ : Type} [DecidableEq κ] (keyOf : Record → κ) (xs : List Record) :
    ((countBy keyOf xs).map (fun kv => kv.2)).sum = xs.length := by
  rw [countBy_map_snd]
  exact d3group_length_sum keyOf xs

/-- The group totals of `rateBy` sum to the number of records. -/
theorem rateBy_total_sum (keyOf : Record → String) (pred : Record → Bool)
    (xs : List Record) :
    ((rateBy keyOf pred xs).map (fun a => a.total)).sum = xs.length := by
  have : (rateBy keyOf pred xs).map (fun a => a.total)
      = (d3group keyOf xs).map (fun kv => kv.2.length) := by
    simp [rateBy, List.map_map, Function.comp]
  rw [this]
  exact d3group_length_sum keyOf xs

/-- C2. A `NaN`-valued field (`none`) is excluded from every numeric
aggregate — prepending it changes no five-number summary and no KPI median —
rather than being coerced to zero or propagated, while the same record still
counts in the categorical `countBy`/`rateBy` aggregates. -/
theorem nan_excluded_from_numeric_aggregates (l : List JSNum) (p : ℚ)
    (xs : List Record) (r : Record) (hage : r.age = none)
    (keyOf : Record → String) (pred : Record → Bool) :
    fiveNumberSummary (none :: l) = fiveNumberSummary l
  ∧ d3quantile (none :: l) p = d3quantile l p
  ∧ d3min (none :: l) = d3min l
  ∧ d3max (none :: l) = d3max l
  ∧ (computeKPI (r :: xs)).medianAge = (computeKPI xs).medianAge
  ∧ ((countBy keyOf (r :: xs)).map (fun kv => kv.2)).sum = xs.length + 1
  ∧ ((rateBy keyOf pred (r :: xs)).map (fun a => a.total)).sum = xs.length + 1
  ∧ d3quantile [some 10, none] (1/2) ≠ d3quantile [some 10, some 0] (1/2) := by
  refine ⟨rfl, rfl, rfl, rfl, ?_, ?_, ?_, ?_⟩
  · show d3median ((r :: xs).map (fun d => d.age)) = d3median (xs.map (fun d => d.age))
    rw [List.map_cons, hage]
    rfl
  · rw [countBy_sum]
    rfl
  · rw [rateBy_total_sum]
    rfl
  · norm_num [d3quantile, qSorted, validNumbers, List.insertionSort, List.orderedInsert]

/-- Witness for C2 at a concrete record with `NaN` age. -/
theorem nan_excluded_from_numeric_aggregates_witness :
    ({ base with age := none } : Record).age = none ∧
    (fiveNumberSummary (none :: [some 10]) = fiveNumberSummary [some 10]
  ∧ d3quantile (none :: [some 10]) (1/2) = d3quantile [some 10] (1/2)
  ∧ d3min (none :: [some 10]) = d3min [some 10]
  ∧ d3max (none :: [some 10]) = d3max [some 10]
  ∧ (computeKPI ({ base with age := none } :: [base])).medianAge = (computeKPI [base]).medianAge
  ∧ ((countBy (fun d => d.income) ({ base with age := none } :: [base])).map
      (fun kv => kv.2)).sum = [base].length + 1
  ∧ ((rateBy (fun d => d.income) highIncome ({ base with age := none } :: [base])).map
      (fun a => a.total)).sum = [base].length + 1
  ∧ d3quantile [some 10, none] (1/2) ≠ d3quantile [some 10, some 0] (1/2)) :=
  ⟨rfl, nan_excluded_from_numeric_aggregates [some 10] (1/2) [base]
    { base with age := none } rfl (fun d => d.income) highIncome⟩

/-- C3 counterexample: on the empty record set the KPI's high-income share is
`0 / 0 = NaN` (modelled `none`), not the `0` the specification promises. -/
theorem computeKPI_empty_counterexample :
    (computeKPI []).highIncomePercent = none ∧ (none : JSNum) ≠ some 0 :=
  ⟨rfl, by decide⟩

/-- C3 (amended). On the empty record set the KPI summarizer returns
`totalRecords = 0`, an absent (`NaN`) high-income share and an absent
(`undefined`) median age; `countBy` and `rateBy` return empty collections;
no exception is raised (all functions are total). -/
theorem computeKPI_empty :
    computeKPI [] = { total := 0, highIncomePercent := none, medianAge := none }
  ∧ (∀ keyOf : Record → String, countBy keyOf [] = [])
  ∧ (∀ (keyOf : Record → String) (pred : Record → Bool), rateBy keyOf pred [] = []) :=
  ⟨rfl, fun _ => rfl, fun _ _ => rfl⟩

/-- C5. `countBy` returns exactly one aggregate per distinct observed key
(keys are distinct and are exactly the observed ones, in first-seen order),
the counts sum to the number of records, and the income example yields
`[(">50K", 2), ("<=50K", 1)]`. -/
theorem countBy_spec (xs : List Record) (keyOf : Record → String) :
    ((countBy keyOf xs).map (fun kv => kv.1)).Nodup
  ∧ (countBy keyOf xs).map (fun kv => kv.1) = firstSeen (xs.map keyOf)
  ∧ (∀ k, k ∈ (countBy keyOf xs).map (fun kv => kv.1) ↔ ∃ x ∈ xs, keyOf x = k)
  ∧ ((countBy keyOf xs).map (fun kv => kv.2)).sum = xs.length
  ∧ countBy (fun d => d.income)
      [{ base with income := ">50K" }, { base with income := ">50K" }, base]
      = [(">50K", 2), ("<=50K", 1)] := by
  have hkeys : (countBy keyOf xs).map (fun kv => kv.1) = firstSeen (xs.map keyOf) := by
    simp only [countBy, d3rollup, List.map_map]
    exact d3group_keys keyOf xs
  refine ⟨?_, hkeys, ?_, countBy_sum keyOf xs, by decide⟩
  · rw [hkeys]
    exact firstSeen_nodup _
  · intro k
    rw [hkeys]
    constructor
    · intro hk
      obtain ⟨x, hx, hxk⟩ := List.mem_map.mp (firstSeen_mem.mp hk)
      exact ⟨x, hx, hxk⟩
    · intro ⟨x, hx, hxk⟩
      exact firstSeen_mem.mpr (List.mem_map.mpr ⟨x, hx, hxk⟩)

/-- C6. Every aggregate emitted by `rateBy` has `total ≥ 1` (groups come from
observed keys, so they are never empty and the division is never by zero),
`matched ≤ total`, and `rate = matched / total ∈ [0, 1]`. -/
theorem rateBy_invariants (xs : List Record) (keyOf : Record → String)
    (pred : Record → Bool) (a : RateAgg) (ha : a ∈ rateBy keyOf pred xs) :
    1 ≤ a.total ∧ a.matched ≤ a.total ∧ a.rate = (a.matched : ℚ) / (a.total : ℚ)
  ∧ 0 ≤ a.rate ∧ a.rate ≤ 1 := by
  obtain ⟨⟨k, g⟩, hkv, rfl⟩ := List.mem_map.mp ha
  have hne : g ≠ [] := d3group_nonempty hkv
  have hpos : 0 < g.length := List.length_pos.mpr hne
  have hle : (g.filter pred).length ≤ g.length := List.length_filter_le _ _
  dsimp only
  refine ⟨hpos, hle, rfl, ?_, ?_⟩
  · exact div_nonneg (Nat.cast_nonneg _) (Nat.cast_nonneg _)
  · rw [div_le_one (by exact_mod_cast hpos)]
    exact_mod_cast hle

/-- Witness for C6 at a one-record input. -/
theorem rateBy_invariants_witness :
    (⟨"Adm-clerical", 0, 1, 0⟩ : RateAgg) ∈
      rateBy (fun d => d.occupation) highIncome [base] ∧
    (1 ≤ (⟨"Adm-clerical", 0, 1, 0⟩ : RateAgg).total ∧
      (⟨"Adm-clerical", 0, 1, 0⟩ : RateAgg).matched ≤ (⟨"Adm-clerical", 0, 1, 0⟩ : RateAgg).total ∧
      (⟨"Adm-clerical", 0, 1, 0⟩ : RateAgg).rate =
        (((⟨"Adm-clerical", 0, 1, 0⟩ : RateAgg).matched : ℚ) /
          ((⟨"Adm-clerical", 0, 1, 0⟩ : RateAgg).total : ℚ)) ∧
      0 ≤ (⟨"Adm-clerical", 0, 1, 0⟩ : RateAgg).rate ∧
      (⟨"Adm-clerical", 0, 1, 0⟩ : RateAgg).rate ≤ 1) := by
  have heval : rateBy (fun d => d.occupation) highIncome [base] =
      [{ key := "Adm-clerical", rate := 0, total := 1, matched := 0 }] := by
    norm_num [rateBy, d3group, firstSeen, highIncome, base,
      List.filter_cons, List.filter_nil, RateAgg.mk.injEq]
    all_goals decide
  have hmem : (⟨"Adm-clerical", 0, 1, 0⟩ : RateAgg) ∈
      rateBy (fun d => d.occupation) highIncome [base] := by
    rw [heval]
    exact List.mem_singleton_self _
  exact ⟨hmem, rateBy_invariants [base] (fun d => d.occupation) highIncome _ hmem⟩

end IncomeDash

namespace IncomeDash

/-- Two one-record occupations with equal (zero) high-income rates, first seen
in anti-lexical order. -/
def recB : Record := { base with occupation := "B-job" }

/-- See `recB`. -/
def recA : Record := { base with occupation := "A-job" }

/-- C7 counterexample: with equal rates, `occupationRates` keeps the first-seen
order `["B-job", "A-job"]` even though `"A-job" < "B-job"` lexically, and the
reversed input yields the reversed output, so the order is not a function of
the multiset of aggregates. -/
theorem occupationRates_tiebreak_counterexample :
    occupationRates [recB, recA] =
      [{ key := "B-job", rate := 0, total := 1, matched := 0 },
       { key := "A-job", rate := 0, total := 1, matched := 0 }]
  ∧ ("A-job" : String) < "B-job"
  ∧ occupationRates [recA, recB] =
      [{ key := "A-job", rate := 0, total := 1, matched := 0 },
       { key := "B-job", rate := 0, total := 1, matched := 0 }]
  ∧ ([recB, recA] : List Record).Perm [recA, recB] := by
  refine ⟨?_, ?_, ?_, List.Perm.swap recA recB []⟩
  · simp [occupationRates, rateBy, d3group, firstSeen, highIncome, occupationFilter,
      base, recA, recB, List.insertionSort, List.orderedInsert, rateDesc, RateAgg.mk.injEq]
  · rw [String.lt_iff_toList_lt]
    exact List.Lex.rel (by decide)
  · simp [occupationRates, rateBy, d3group, firstSeen, highIncome, occupationFilter,
      base, recA, recB, List.insertionSort, List.orderedInsert, rateDesc, RateAgg.mk.injEq]

/-- C7 (amended). `occupationRates` is sorted descending by rate and is a
permutation of the per-occupation aggregates; the sort is stable, so any two
aggregates already in comparator order — in particular any two with equal
rates — keep their first-seen relative order, and the output is a
deterministic function of the input record list (not of its multiset alone). -/
theorem occupationRates_sorted_stable (xs : List Record) :
    (occupationRates xs).Sorted rateDesc
  ∧ (occupationRates xs).Perm
      (rateBy (fun d => d.occupation) highIncome (xs.filter occupationFilter))
  ∧ (∀ a b : RateAgg, rateDesc a b →
      List.Sublist [a, b] (rateBy (fun d => d.occupation) highIncome (xs.filter occupationFilter)) →
      List.Sublist [a, b] (occupationRates xs)) :=
  ⟨List.sorted_insertionSort rateDesc _,
    List.perm_insertionSort rateDesc _,
    fun _ _ hab hsub => List.pair_sublist_insertionSort hab hsub⟩

/-- C8 counterexample: the `AgeChart` x-scale (domain `[15, 95]`, range
`[0, 410]`) maps the out-of-domain value `0` to `-615/8`, outside the range:
d3 linear scales extrapolate instead of clamping. -/
theorem scaleLinear_no_clamp_counterexample :
    scaleLinear 15 95 0 410 0 = -615/8 ∧ ¬ (0 ≤ scaleLinear 15 95 0 410 0) := by
  norm_num [scaleLinear]

/-- C8 (amended). With a non-degenerate domain the scale applies the linear
interpolation formula to every value — with no clamping, so out-of-domain
values extrapolate — and for values inside the domain the result does lie
between the range endpoints. -/
theorem scaleLinear_formula (d0 d1 r0 r1 v : ℚ) (hne : d1 - d0 ≠ 0) :
    scaleLinear d0 d1 r0 r1 v = r0 + ((v - d0) / (d1 - d0)) * (r1 - r0)
  ∧ (d0 < d1 → d0 ≤ v → v ≤ d1 →
      min r0 r1 ≤ scaleLinear d0 d1 r0 r1 v ∧ scaleLinear d0 d1 r0 r1 v ≤ max r0 r1) := by
  constructor
  · rw [scaleLinear, if_neg hne]
  · intro hd hv0 hv1
    rw [scaleLinear, if_neg hne]
    have hdpos : 0 < d1 - d0 := by linarith
    have ht0 : 0 ≤ (v - d0) / (d1 - d0) := div_nonneg (by linarith) (le_of_lt hdpos)
    have ht1 : (v - d0) / (d1 - d0) ≤ 1 := by
      rw [div_le_one hdpos]
      linarith
    rcases le_total r0 r1 with hr | hr
    · rw [min_eq_left hr, max_eq_right hr]
      constructor <;> nlinarith
    · rw [min_eq_right hr, max_eq_left hr]
      constructor <;> nlinarith

/-- Witness for C8 at the `AgeChart` scale and the in-domain value `55`. -/
theorem scaleLinear_formula_witness :
    ((95 : ℚ) - 15 ≠ 0) ∧
    (scaleLinear 15 95 0 410 55 = 0 + ((55 - 15) / (95 - 15)) * (410 - 0)
  ∧ ((15 : ℚ) < 95 → (15 : ℚ) ≤ 55 → (55 : ℚ) ≤ 95 →
      min (0 : ℚ) 410 ≤ scaleLinear 15 95 0 410 55 ∧
        scaleLinear 15 95 0 410 55 ≤ max (0 : ℚ) 410)) :=
  ⟨by norm_num, scaleLinear_formula 15 95 0 410 55 (by norm_num)⟩

/-- C9 counterexample: the `EducationChart` y-scale with an all-zero rate
domain (`[0, 0]`, range `[260, 0]`) maps every value to `130`, the midpoint of
the range, not to `r0 = 260`. -/
theorem scaleLinear_degenerate_counterexample :
    scaleLinear 0 0 260 0 5 = 130 ∧ scaleLinear 0 0 260 0 5 ≠ 260 := by
  norm_num [scaleLinear]

/-- C9 (amended). With a degenerate domain `d0 = d1` every value maps — with
no error, the function being total — to the midpoint `(r0 + r1) / 2` of the
range (d3's `normalize` falls back to the constant `1/2`), not to `r0`. -/
theorem scaleLinear_degenerate (d r0 r1 v : ℚ) :
    scaleLinear d d r0 r1 v = (r0 + r1) / 2 := by
  rw [scaleLinear, if_pos (sub_self d)]
  ring

end IncomeDash

namespace IncomeDash

/-- Records with the same education but different `education.num`, for probing
the `values[0]` sort key. -/
def eduX1 : Record := { base with education := "X", educationNum := some 5 }

/-- See `eduX1`. -/
def eduY : Record := { base with education := "Y", educationNum := some 3 }

/-- See `eduX1`. -/
def eduX2 : Record := { base with education := "X", educationNum := some 1 }

/-- C10. The per-education sort key is `values[0]['education.num']`, the
`education.num` of the first record encountered for that education string; on
inputs where records of one education carry different `education.num` values,
the output order therefore depends on the input record order: the two
permutations `[eduX1, eduY, eduX2]` and `[eduX2, eduY, eduX1]` order the
education keys differently. -/
theorem educationRates_sortkey (xs : List Record) (a : EduAgg)
    (ha : a ∈ educationRates xs) :
    a.educationNum =
      (xs.find? (fun d => decide (d.education = a.education))).bind Record.educationNum
  ∧ (educationRates [eduX1, eduY, eduX2]).map (fun e => e.education) = ["Y", "X"]
  ∧ (educationRates [eduX2, eduY, eduX1]).map (fun e => e.education) = ["X", "Y"]
  ∧ ([eduX1, eduY, eduX2] : List Record).Perm [eduX2, eduY, eduX1] := by
  refine ⟨?_, ?_, ?_, by decide⟩
  · have ha2 := (List.mem_insertionSort eduAsc).mp ha
    obtain ⟨⟨k, g⟩, hkv, rfl⟩ := List.mem_map.mp ha2
    obtain ⟨_, hg⟩ := d3group_mem_key hkv
    show g.head?.bind Record.educationNum =
      (xs.find? (fun d => decide (d.education = k))).bind Record.educationNum
    rw [hg, head?_filter]
  · simp [educationRates, eduAggOf, d3group, firstSeen, base,
      eduX1, eduY, eduX2, List.insertionSort, List.orderedInsert, eduAsc]
    try norm_num
  · simp [educationRates, eduAggOf, d3group, firstSeen, base,
      eduX1, eduY, eduX2, List.insertionSort, List.orderedInsert, eduAsc]
    try norm_num

/-- Witness for C10 at a one-record input. -/
theorem educationRates_sortkey_witness :
    (⟨"Bachelors", 0, 1, some 13⟩ : EduAgg) ∈ educationRates [base] ∧
    ((⟨"Bachelors", 0, 1, some 13⟩ : EduAgg).educationNum =
      ([base].find? (fun d =>
        decide (d.education = (⟨"Bachelors", 0, 1, some 13⟩ : EduAgg).education))).bind
        Record.educationNum
  ∧ (educationRates [eduX1, eduY, eduX2]).map (fun e => e.education) = ["Y", "X"]
  ∧ (educationRates [eduX2, eduY, eduX1]).map (fun e => e.education) = ["X", "Y"]
  ∧ ([eduX1, eduY, eduX2] : List Record).Perm [eduX2, eduY, eduX1]) := by
  have hmem : (⟨"Bachelors", 0, 1, some 13⟩ : EduAgg) ∈ educationRates [base] := by
    have heval : educationRates [base] = [⟨"Bachelors", 0, 1, some 13⟩] := by
      simp [educationRates, eduAggOf, d3group, firstSeen, base,
        List.insertionSort, List.orderedInsert, eduAsc, highIncome, EduAgg.mk.injEq]
    rw [heval]
    exact List.mem_singleton_self _
  exact ⟨hmem, educationRates_sortkey [base] _ hmem⟩

end IncomeDash
